import Mathlib

/-!
Verification of the go-resolve dependency resolver (resolve.go).

The embedding models the package's data and control flow directly:

* `Ty` models a `reflect.Type`: an opaque identifier together with the result
  of `t.Implements(errorType)` (field `isErr`).
* `Val` models a `reflect.Value` as its (declared) type plus a payload,
  `none` standing for a nil value.
* `FuncNode` models `funcNode`; the field `nid` models the pointer identity
  of the heap-allocated node, and `outputs` models the behavior of the stored
  `raw` callable (the values it returns when invoked).
* `Resolver` models `Resolver`; `providedBy` is the `map[reflect.Type]*funcNode`
  as an association list from type to node id, `names` the `map[string]bool`
  key set, and `nextId` models the allocator producing fresh node pointers.
* Go iterates maps in an unspecified order.  The only place this order is
  observable is the collection of "ready" nodes inside `getOrder`'s Kahn
  elimination, so `getOrder` takes a `sched` parameter giving, for each round,
  the iteration order of the ready set.  The set of missing dependencies is
  kept as a deduplicated list in first-encounter order (only its membership is
  ever asserted).
* The Kahn loop runs at most one round per remaining node, so it is written
  with explicit fuel `r.nodes.length + 1`; the zero-fuel branch is
  unreachable (every round strictly shrinks the remaining list).
-/

deriving instance DecidableEq for Except

namespace GoResolve

/-- Model of a `reflect.Type`: an opaque identifier plus whether the type
implements the `error` interface (`t.Implements(errorType)` in resolve.go). -/
structure Ty where
  tid : Nat
  isErr : Bool
deriving DecidableEq, Repr

/-- The `error` interface type itself (`errorType` in resolve.go). -/
def errorType : Ty := ⟨0, true⟩

/-- Model of a runtime value: its declared type together with a payload,
`none` meaning a nil value. -/
structure Val where
  ty : Ty
  payload : Option Nat
deriving DecidableEq, Repr

/-- Model of `funcNode`.  `nid` models the pointer identity of the Go heap
allocation; `outputs` models the `raw` callable: the values it returns when
invoked (positionally matching `provides`). -/
structure FuncNode where
  nid : Nat
  name : String
  provides : List Ty
  requires : List Ty
  outputs : List Val
deriving DecidableEq, Repr

/-- Model of the `interface{}` argument passed to `AddNode`: nil, a non-func
value, or a func together with its reflected signature and behavior. -/
inductive Item where
  | nilItem : Item
  | notFunc : Item
  | fn (requires provides : List Ty) (outputs : List Val) : Item
deriving DecidableEq, Repr

/-- `EnsureValidFactory`: nil and non-func items are rejected. -/
def EnsureValidFactory : Item → Option String
  | .nilItem => some "Factory cannot be nil"
  | .notFunc => some "Factory is not a func"
  | .fn _ _ _ => none

/-- `newFuncNode`: validate the item and read off its signature.  The fresh
node id (Go: the address of the allocated node) is passed in by the caller. -/
def newFuncNode (nid : Nat) (name : String) (item : Item) :
    Except String FuncNode :=
  match item with
  | .nilItem => .error "Factory cannot be nil"
  | .notFunc => .error "Factory is not a func"
  | .fn req prov outs =>
      .ok { nid := nid, name := name, provides := prov, requires := req,
            outputs := outs }

/-- Model of `Resolver`. -/
structure Resolver where
  nodes : List FuncNode
  names : List String
  providedBy : List (Ty × Nat)
  nextId : Nat
deriving DecidableEq, Repr

/-- `NewResolver`: the empty resolver. -/
def NewResolver : Resolver := ⟨[], [], [], 0⟩

/-- The provides loop of `AddNode`: error-implementing types are skipped, a
type that already has a producer aborts with an error, and otherwise the
mapping is recorded immediately — before the remaining provided types have
been checked.  Returns the Go error (if any) together with the possibly
partially updated `providedBy` map. -/
def addProvides (nid : Nat) (pb : List (Ty × Nat)) :
    List Ty → Option String × List (Ty × Nat)
  | [] => (none, pb)
  | t :: ts =>
      if t.isErr then addProvides nid pb ts
      else if (pb.lookup t).isSome then
        (some "Type provided by multiple constructors", pb)
      else addProvides nid (pb ++ [(t, nid)]) ts

/-- `AddNode`: reject duplicate names, build the node, run the provides loop
(which may leave `providedBy` partially updated on failure), and on success
append the node and record its name.  Returns the Go error (if any) together
with the post-call resolver state. -/
def AddNode (r : Resolver) (name : String) (item : Item) :
    Option String × Resolver :=
  if r.names.contains name then (some "Name provided by multiple nodes", r)
  else
    match newFuncNode r.nextId name item with
    | .error e => (some e, r)
    | .ok n =>
        match addProvides n.nid r.providedBy n.provides with
        | (some e, pb) =>
            (some e, { r with providedBy := pb, nextId := r.nextId + 1 })
        | (none, pb) =>
            (none, { r with nodes := r.nodes ++ [n],
                            names := r.names ++ [name],
                            providedBy := pb,
                            nextId := r.nextId + 1 })

/-- Resolve-time errors.  The Go code uses plain error strings; the inductive
carries the data each error reports (the missing-dependency error carries the
set of missing types, the factory failure carries the offending value). -/
inductive ResolveError where
  | missingDependencies (tys : List Ty)
  | circularDependency
  | invokeFailed
  | factoryFailed (v : Val)
deriving DecidableEq, Repr

/-- The missing-dependency scan of `getOrder`: every required type with no
entry in `providedBy`, collected over all nodes, deduplicated (the Go code
collects them into a set; iteration order of that set is abstracted as
first-encounter order, and only membership in it is ever asserted). -/
def missingDeps (r : Resolver) : List Ty :=
  (r.nodes.flatMap fun n =>
    n.requires.filter fun t => (r.providedBy.lookup t).isNone).dedup

/-- The dependency edges recorded for one node: the producing node's id for
every required type that has a producer (`nodeDependencies[n]` in Go). -/
def depsOf (r : Resolver) (n : FuncNode) : List Nat :=
  n.requires.filterMap fun t => r.providedBy.lookup t

/-- The initial Kahn state: every node paired with its dependency set. -/
def initState (r : Resolver) : List (FuncNode × List Nat) :=
  r.nodes.map fun n => (n, depsOf r n)

/-- The nodes of one Kahn state. -/
def stNodes (st : List (FuncNode × List Nat)) : List FuncNode :=
  st.map Prod.fst

/-- The ready nodes of one Kahn round: those whose unsatisfied-dependency set
is empty. -/
def kahnReady (remaining : List (FuncNode × List Nat)) : List FuncNode :=
  (remaining.filter fun p => p.2.isEmpty).map Prod.fst

/-- One Kahn round on the remaining state: drop the ready nodes and delete
their ids from every remaining dependency set. -/
def kahnNext (remaining : List (FuncNode × List Nat)) :
    List (FuncNode × List Nat) :=
  (remaining.filter fun p => !p.2.isEmpty).map
    fun p => (p.1, p.2.filter fun d =>
      !((kahnReady remaining).map FuncNode.nid).contains d)

/-- The Kahn elimination loop of `getOrder`.  `sched round` gives the (Go
map) iteration order in which the ready nodes of that round are visited; the
emptiness test and the deletions are order-independent, so `sched` only
affects the order in which ready nodes are appended to the output.  The loop
runs at most one round per remaining node; `fuel` makes the recursion
structural and the zero-fuel branch is unreachable when `fuel` exceeds the
length of `remaining`. -/
def kahnLoop (sched : Nat → List FuncNode → List FuncNode) :
    Nat → Nat → List (FuncNode × List Nat) → List FuncNode →
    Except ResolveError (List FuncNode)
  | 0, _, _, _ => .error .circularDependency
  | fuel + 1, round, remaining, acc =>
      if remaining.isEmpty then .ok acc
      else if (kahnReady remaining).isEmpty then .error .circularDependency
      else
        kahnLoop sched fuel (round + 1) (kahnNext remaining)
          (acc ++ sched round (kahnReady remaining))

/-- `getOrder`: fail with the deduplicated missing-dependency set if any
required type has no producer, otherwise run the Kahn elimination. -/
def getOrder (sched : Nat → List FuncNode → List FuncNode) (r : Resolver) :
    Except ResolveError (List FuncNode) :=
  if (missingDeps r).isEmpty then
    kahnLoop sched (r.nodes.length + 1) 0 (initState r) []
  else .error (.missingDependencies (missingDeps r))

/-- `injector.Set`: record a value under its type, overwriting any previous
value of that type. -/
def storeSet (store : List (Ty × Val)) (t : Ty) (v : Val) :
    List (Ty × Val) :=
  (t, v) :: store.filter fun p => !(p.1 == t)

/-- `injector.Invoke`: succeeds (returning the callable's outputs) exactly
when every required type is present in the injector; otherwise inject
reports a missing value. -/
def invokeNode (store : List (Ty × Val)) (n : FuncNode) :
    Except ResolveError (List Val) :=
  if n.requires.all fun t => (store.lookup t).isSome then .ok n.outputs
  else .error .invokeFailed

/-- The inner loop of `createInjector` over one call's returned values: a
non-nil value whose type implements `error` aborts with exactly that value;
every other value (including nil error values) is stored under its type. -/
def processVals (store : List (Ty × Val)) :
    List Val → Except ResolveError (List (Ty × Val))
  | [] => .ok store
  | v :: vs =>
      if v.ty.isErr && v.payload.isSome then .error (.factoryFailed v)
      else processVals (storeSet store v.ty v) vs

/-- The loop of `createInjector` over the computed order: invoke each node in
turn, feeding its outputs through `processVals`. -/
def runOrder (store : List (Ty × Val)) :
    List FuncNode → Except ResolveError (List (Ty × Val))
  | [] => .ok store
  | n :: rest =>
      match invokeNode store n with
      | .error e => .error e
      | .ok vals =>
          match processVals store vals with
          | .error e => .error e
          | .ok store' => runOrder store' rest

/-- `createInjector`: run the order against an initially empty injector. -/
def createInjector (order : List FuncNode) :
    Except ResolveError (List (Ty × Val)) :=
  runOrder [] order

/-- `Resolve`: compute the order, then execute it. -/
def Resolve (sched : Nat → List FuncNode → List FuncNode) (r : Resolver) :
    Except ResolveError (List (Ty × Val)) :=
  match getOrder sched r with
  | .error e => .error e
  | .ok order => createInjector order

/-! ### Derived notions used by the claims -/

/-- `sched` is a legal model of Go map iteration: each round it permutes the
ready list. -/
def ValidSched (sched : Nat → List FuncNode → List FuncNode) : Prop :=
  ∀ i l, (sched i l).Perm l

/-- The identity schedule (ready nodes visited in insertion order). -/
def idSched : Nat → List FuncNode → List FuncNode := fun _ l => l

/-- The reversing schedule (another legal map iteration order). -/
def revSched : Nat → List FuncNode → List FuncNode := fun _ l => l.reverse

/-- Dependency edge of the resolver: `b` must run before `a` because `a`
requires a type whose recorded producer is `b`. -/
def Edge (r : Resolver) (b a : FuncNode) : Prop :=
  b ∈ r.nodes ∧ a ∈ r.nodes ∧
    ∃ t ∈ a.requires, r.providedBy.lookup t = some b.nid

/-- Every required type of every node has a recorded producer. -/
def Satisfied (r : Resolver) : Prop :=
  ∀ n ∈ r.nodes, ∀ t ∈ n.requires, (r.providedBy.lookup t).isSome

/-- `t` has no registered producer: no registered node provides `t` as a
non-failure type. -/
def NoProducer (r : Resolver) (t : Ty) : Prop :=
  ∀ m ∈ r.nodes, t ∈ m.provides → t.isErr = true

/-- Acyclicity of the dependency relation: every nonempty collection of
registered nodes contains a node with no dependency inside the collection. -/
def Acyclic (r : Resolver) : Prop :=
  ∀ S : List FuncNode, S ≠ [] → (∀ x ∈ S, x ∈ r.nodes) →
    ∃ a ∈ S, ∀ b ∈ S, ¬ Edge r b a

/-- The dependency relation has a cycle: a nonempty collection of registered
nodes each of which depends on another member of the collection. -/
def HasCycle (r : Resolver) : Prop :=
  ∃ S : List FuncNode, S ≠ [] ∧ (∀ x ∈ S, x ∈ r.nodes) ∧
    ∀ a ∈ S, ∃ b ∈ S, Edge r b a

/-- `b` occurs (strictly) before `a` in the list `o`. -/
def Precedes (o : List FuncNode) (b a : FuncNode) : Prop :=
  ∃ l₁ l₂ l₃, o = l₁ ++ b :: l₂ ++ a :: l₃

/-- Well-formedness of a resolver, as established by successful registrations
only: node ids are distinct, every `providedBy` entry points at a registered
node that provides that (non-error) type, and every non-error provided type
of a registered node has an entry.  A failed `AddNode` can break the second
component (see the C6 analysis). -/
def Inv (r : Resolver) : Prop :=
  (r.nodes.map FuncNode.nid).Nodup ∧
  (∀ p ∈ r.providedBy,
      p.1.isErr = false ∧ ∃ n ∈ r.nodes, n.nid = p.2 ∧ p.1 ∈ n.provides) ∧
  (∀ n ∈ r.nodes, ∀ t ∈ n.provides, t.isErr = false →
      ∃ p ∈ r.providedBy, p.1 = t)

/-- The outputs of every registered factory are positionally typed by its
provides list.  In Go this holds by construction: the i-th result of a
reflect.Call has the declared type Out(i), which is the i-th entry of
`provides`. -/
def OutputsTyped (r : Resolver) : Prop :=
  ∀ n ∈ r.nodes, n.outputs.map Val.ty = n.provides

/-- Every non-failure type has at most one registered factory providing it
(the spec's unique-producer Registry invariant, at the descriptor level). -/
def UniqueProducers (r : Resolver) : Prop :=
  ∀ n ∈ r.nodes, ∀ m ∈ r.nodes, ∀ t ∈ n.provides,
    t.isErr = false → t ∈ m.provides → n = m

/-- First non-nil error-implementing value in a list of outputs. -/
def firstFailure (vals : List Val) : Option Val :=
  vals.find? fun v => v.ty.isErr && v.payload.isSome

/-! ### Concrete registries used by the witnesses and counterexamples -/

/-- A plain non-error type (Go: `int`). -/
def tyA : Ty := ⟨1, false⟩

/-- Another plain non-error type (Go: `float32`). -/
def tyB : Ty := ⟨2, false⟩

/-- A concrete (non-interface) type that implements the `error` interface
(Go: a type such as a custom error struct pointer). -/
def tyConcreteErr : Ty := ⟨5, true⟩

/-- Producer of `tyA` followed by a consumer of `tyA`. -/
def rChain : Resolver :=
  (AddNode (AddNode NewResolver "B" (.fn [] [tyA] [⟨tyA, some 42⟩])).2
    "A" (.fn [tyA] [] [])).2

/-- The producer node of `rChain`. -/
def nChainB : FuncNode := ⟨0, "B", [tyA], [], [⟨tyA, some 42⟩]⟩

/-- The consumer node of `rChain`. -/
def nChainA : FuncNode := ⟨1, "A", [], [tyA], []⟩

/-- A two-node dependency cycle: "1" requires `tyA` and provides `tyB`,
"2" requires `tyB` and provides `tyA`. -/
def rCycle : Resolver :=
  (AddNode (AddNode NewResolver "1" (.fn [tyA] [tyB] [⟨tyB, some 0⟩])).2
    "2" (.fn [tyB] [tyA] [⟨tyA, some 0⟩])).2

/-- First node of the cycle registry. -/
def nCycle1 : FuncNode := ⟨0, "1", [tyB], [tyA], [⟨tyB, some 0⟩]⟩

/-- Second node of the cycle registry. -/
def nCycle2 : FuncNode := ⟨1, "2", [tyA], [tyB], [⟨tyA, some 0⟩]⟩

/-- Two descriptors with two distinct unsatisfied requirements. -/
def rMissing : Resolver :=
  (AddNode (AddNode NewResolver "a" (.fn [tyA] [] [])).2
    "b" (.fn [tyB] [] [])).2

/-- A registry with one registered producer of `tyB`. -/
def rDup1 : Resolver := (AddNode NewResolver "a" (.fn [] [tyB] [])).2

/-- Two independent descriptors (no requirements). -/
def rPair : Resolver :=
  (AddNode (AddNode NewResolver "a" (.fn [] [] [])).2 "b" (.fn [] [] [])).2

/-- First node of `rPair`. -/
def nPairA : FuncNode := ⟨0, "a", [], [], []⟩

/-- Second node of `rPair`. -/
def nPairB : FuncNode := ⟨1, "b", [], [], []⟩

/-- A non-nil value of a concrete error-implementing type. -/
def vBad : Val := ⟨tyConcreteErr, some 7⟩

/-- A factory returning `vBad`. -/
def nBad : FuncNode := ⟨0, "f", [tyConcreteErr], [], [vBad]⟩

/-- A non-nil value of the `error` interface type. -/
def vFail : Val := ⟨errorType, some 3⟩

/-- A factory returning the non-nil error `vFail`. -/
def nFail : FuncNode := ⟨0, "f", [errorType], [], [vFail]⟩

/-- An independent factory registered after `nFail`. -/
def nAfter : FuncNode := ⟨1, "g", [], [], []⟩

/-- Registry with a failing factory and a second independent factory. -/
def rFail : Resolver :=
  (AddNode (AddNode NewResolver "f" (.fn [] [errorType] [vFail])).2
    "g" (.fn [] [] [])).2

/-- Registry with a factory producing a (nil) error and a factory whose
requirement is the `error` interface type itself. -/
def rNeedsErr : Resolver :=
  (AddNode (AddNode NewResolver "e" (.fn [] [errorType] [⟨errorType, none⟩])).2
    "n" (.fn [errorType] [] [])).2

/-- The error-requiring node of `rNeedsErr`. -/
def nNeedsErr : FuncNode := ⟨1, "n", [], [errorType], []⟩

/-- A registry with one registered producer of `tyA`. -/
def rProd : Resolver := (AddNode NewResolver "p" (.fn [] [tyA] [])).2

/-- Two independent factories with outputs: "a" produces `tyA`, "b" produces
`tyB` together with a nil error value. -/
def rStore : Resolver :=
  (AddNode (AddNode NewResolver "a" (.fn [] [tyA] [⟨tyA, some 7⟩])).2
    "b" (.fn [] [tyB, errorType] [⟨tyB, some 8⟩, ⟨errorType, none⟩])).2

/-- First node of `rStore`. -/
def nStoreA : FuncNode := ⟨0, "a", [tyA], [], [⟨tyA, some 7⟩]⟩

/-- Second node of `rStore`. -/
def nStoreB : FuncNode :=
  ⟨1, "b", [tyB, errorType], [], [⟨tyB, some 8⟩, ⟨errorType, none⟩]⟩

/-! ### Association-list lemmas -/

theorem lookup_eq_some_mem {β : Type} {pb : List (Ty × β)} {t : Ty} {i : β}
    (h : pb.lookup t = some i) : (t, i) ∈ pb := by
  induction pb with
  | nil => simp [List.lookup] at h
  | cons p ps ih =>
      rcases p with ⟨k, v⟩
      by_cases hk : t = k
      · subst hk
        simp only [List.lookup_cons, beq_self_eq_true] at h
        cases h
        exact List.mem_cons_self _ _
      · have hbeq : (t == k) = false := by simp [hk]
        simp only [List.lookup_cons, hbeq] at h
        exact List.mem_cons_of_mem _ (ih h)

theorem lookup_isSome_iff {β : Type} {pb : List (Ty × β)} {t : Ty} :
    (pb.lookup t).isSome = true ↔ ∃ p ∈ pb, p.1 = t := by
  induction pb with
  | nil => simp [List.lookup]
  | cons p ps ih =>
      rcases p with ⟨k, v⟩
      by_cases hk : t = k
      · subst hk
        simp [List.lookup_cons]
      · have hbeq : (t == k) = false := by simp [hk]
        simp only [List.lookup_cons, hbeq]
        rw [ih]
        constructor
        · rintro ⟨p, hp, rfl⟩
          exact ⟨p, List.mem_cons_of_mem _ hp, rfl⟩
        · rintro ⟨p, hp, hpt⟩
          rcases List.mem_cons.mp hp with rfl | h
          · exact absurd hpt.symm hk
          · exact ⟨p, h, hpt⟩

theorem lookup_append {β : Type} (pb qb : List (Ty × β)) (t : Ty) :
    (pb ++ qb).lookup t =
      match pb.lookup t with
      | some v => some v
      | none => qb.lookup t := by
  induction pb with
  | nil => simp [List.lookup]
  | cons p ps ih =>
      rcases p with ⟨k, v⟩
      by_cases hk : t = k
      · subst hk
        simp [List.lookup_cons]
      · have hbeq : (t == k) = false := by simp [hk]
        simp [List.lookup_cons, hbeq, ih]

theorem lookup_append_singleton_self {β : Type} {pb : List (Ty × β)} {t : Ty}
    (i : β) (h : pb.lookup t = none) :
    (pb ++ [(t, i)]).lookup t = some i := by
  rw [lookup_append, h]
  simp [List.lookup]

theorem lookup_append_singleton_ne {β : Type} {pb : List (Ty × β)}
    {s t : Ty} (i : β) (h : s ≠ t) :
    (pb ++ [(t, i)]).lookup s = pb.lookup s := by
  rw [lookup_append]
  have hbeq : (s == t) = false := by simp [h]
  cases hlk : pb.lookup s <;> simp [List.lookup, hbeq]

/-! ### Store lemmas -/

theorem lookup_filter_ne {st : List (Ty × Val)} {u t : Ty} (h : u ≠ t) :
    (st.filter fun p => !(p.1 == t)).lookup u = st.lookup u := by
  induction st with
  | nil => simp
  | cons p ps ih =>
      rcases p with ⟨k, v⟩
      by_cases hk : k = t
      · subst hk
        have h1 : (u == k) = false := by simp [h]
        simp [List.filter, List.lookup_cons, h1, ih]
      · have h1 : (k == t) = false := by simp [hk]
        by_cases hu : u = k
        · subst hu
          simp [List.filter, h1, List.lookup_cons]
        · have h2 : (u == k) = false := by simp [hu]
          simp [List.filter, h1, List.lookup_cons, h2, ih]

theorem storeSet_lookup_self {st : List (Ty × Val)} {t : Ty} {v : Val} :
    (storeSet st t v).lookup t = some v := by
  simp [storeSet, List.lookup_cons]

theorem storeSet_lookup_ne {st : List (Ty × Val)} {u t : Ty} {v : Val}
    (h : u ≠ t) : (storeSet st t v).lookup u = st.lookup u := by
  have hbeq : (u == t) = false := by simp [h]
  simp [storeSet, List.lookup_cons, hbeq, lookup_filter_ne h]

theorem storeSet_lookup_isSome_of {st : List (Ty × Val)} {u t : Ty} {v : Val}
    (h : (st.lookup u).isSome = true) :
    ((storeSet st t v).lookup u).isSome = true := by
  by_cases hu : u = t
  · subst hu
    simp [storeSet_lookup_self]
  · rw [storeSet_lookup_ne hu]
    exact h

/-! ### Precedes lemmas -/

theorem precedes_append_left {o l : List FuncNode} {b a : FuncNode}
    (h : Precedes o b a) : Precedes (o ++ l) b a := by
  rcases h with ⟨l₁, l₂, l₃, rfl⟩
  exact ⟨l₁, l₂, l₃ ++ l, by simp⟩

theorem precedes_of_mem_append {u w : List FuncNode} {m n : FuncNode}
    (hm : m ∈ u) (hn : n ∈ w) : Precedes (u ++ w) m n := by
  rcases List.append_of_mem hm with ⟨u₁, u₂, rfl⟩
  rcases List.append_of_mem hn with ⟨w₁, w₂, rfl⟩
  refine ⟨u₁, u₂ ++ w₁, w₂, ?_⟩
  simp

/-! ### Minimum elements (used for the rank-based acyclicity helper) -/

theorem exists_min_image (l : List FuncNode) (g : FuncNode → Nat)
    (h : l ≠ []) : ∃ a ∈ l, ∀ b ∈ l, g a ≤ g b := by
  induction l with
  | nil => exact absurd rfl h
  | cons x xs ih =>
      by_cases hnil : xs = []
      · subst hnil
        exact ⟨x, List.mem_cons_self _ _, by
          intro b hb
          rcases List.mem_cons.mp hb with rfl | hb
          · exact le_refl _
          · simp at hb⟩
      · rcases ih hnil with ⟨m, hm, hmin⟩
        by_cases hxm : g x ≤ g m
        · refine ⟨x, List.mem_cons_self _ _, ?_⟩
          intro b hb
          rcases List.mem_cons.mp hb with rfl | hb
          · exact le_refl _
          · exact le_trans hxm (hmin b hb)
        · refine ⟨m, List.mem_cons_of_mem _ hm, ?_⟩
          intro b hb
          rcases List.mem_cons.mp hb with rfl | hb
          · exact le_of_not_le hxm
          · exact hmin b hb

/-- A strict rank function on node ids witnesses acyclicity. -/
theorem acyclic_of_rank (r : Resolver) (f : Nat → Nat)
    (h : ∀ a ∈ r.nodes, ∀ b ∈ r.nodes, Edge r b a → f b.nid < f a.nid) :
    Acyclic r := by
  intro S hS hsub
  rcases exists_min_image S (fun x => f x.nid) hS with ⟨a, ha, hmin⟩
  refine ⟨a, ha, ?_⟩
  intro b hb hedge
  have hlt : f b.nid < f a.nid := h a (hsub a ha) b (hsub b hb) hedge
  exact absurd (hmin b hb) (not_le_of_lt hlt)

/-! ### addProvides lemmas -/

theorem addProvides_all_err (nid : Nat) (pb : List (Ty × Nat))
    (l : List Ty) (h : ∀ t ∈ l, t.isErr = true) :
    addProvides nid pb l = (none, pb) := by
  induction l with
  | nil => rfl
  | cons t ts ih =>
      have ht := h t (List.mem_cons_self _ _)
      simp only [addProvides, ht, if_true]
      exact ih fun s hs => h s (List.mem_cons_of_mem _ hs)

theorem addProvides_fst_cases (nid : Nat) (pb : List (Ty × Nat))
    (l : List Ty) :
    (addProvides nid pb l).1 = none ∨
    (addProvides nid pb l).1 = some "Type provided by multiple constructors" := by
  induction l generalizing pb with
  | nil => exact Or.inl rfl
  | cons t ts ih =>
      by_cases ht : t.isErr
      · simpa [addProvides, ht] using ih pb
      · cases hlk : pb.lookup t with
        | some i => simp [addProvides, ht, hlk]
        | none => simpa [addProvides, ht, hlk] using ih (pb ++ [(t, nid)])

theorem addProvides_snd_append (nid : Nat) (pb : List (Ty × Nat))
    (l : List Ty) :
    ∃ extra, (addProvides nid pb l).2 = pb ++ extra := by
  induction l generalizing pb with
  | nil => exact ⟨[], by simp [addProvides]⟩
  | cons t ts ih =>
      by_cases ht : t.isErr
      · simpa [addProvides, ht] using ih pb
      · cases hlk : pb.lookup t with
        | some i => exact ⟨[], by simp [addProvides, ht, hlk]⟩
        | none =>
            rcases ih (pb ++ [(t, nid)]) with ⟨extra, hx⟩
            exact ⟨(t, nid) :: extra, by simp [addProvides, ht, hlk, hx]⟩

theorem addProvides_fst_eq_none_iff (nid : Nat) (pb : List (Ty × Nat))
    (l : List Ty) :
    (addProvides nid pb l).1 = none ↔
      ∀ t ∈ l, t.isErr = false → (pb.lookup t = none ∧ l.count t ≤ 1) := by
  induction l generalizing pb with
  | nil => simp [addProvides]
  | cons t ts ih =>
      by_cases ht : t.isErr
      · have hstep : addProvides nid pb (t :: ts) = addProvides nid pb ts := by
          simp [addProvides, ht]
        rw [hstep, ih pb]
        constructor
        · intro H s hs hserr
          have hst : t ≠ s := by
            intro hEq
            rw [← hEq] at hserr
            rw [ht] at hserr
            cases hserr
          have hsmem : s ∈ ts := by
            rcases List.mem_cons.mp hs with hEq | hmem
            · exact absurd hEq.symm hst
            · exact hmem
          rcases H s hsmem hserr with ⟨h1, h2⟩
          refine ⟨h1, ?_⟩
          rw [List.count_cons, beq_eq_false_iff_ne.mpr hst]
          simpa using h2
        · intro H s hsmem hserr
          have hst : t ≠ s := by
            intro hEq
            rw [← hEq] at hserr
            rw [ht] at hserr
            cases hserr
          rcases H s (List.mem_cons_of_mem _ hsmem) hserr with ⟨h1, h2⟩
          rw [List.count_cons, beq_eq_false_iff_ne.mpr hst] at h2
          exact ⟨h1, by simpa using h2⟩
      · have hterr : t.isErr = false := by
          cases hb : t.isErr
          · rfl
          · exact absurd hb ht
        cases hlk : pb.lookup t with
        | some i =>
            have hstep : (addProvides nid pb (t :: ts)).1 =
                some "Type provided by multiple constructors" := by
              simp [addProvides, ht, hlk]
            rw [hstep]
            constructor
            · intro hx
              cases hx
            · intro H
              rcases H t (List.mem_cons_self _ _) hterr with ⟨h1, _⟩
              rw [hlk] at h1
              cases h1
        | none =>
            have hstep : addProvides nid pb (t :: ts) =
                addProvides nid (pb ++ [(t, nid)]) ts := by
              simp [addProvides, ht, hlk]
            rw [hstep, ih (pb ++ [(t, nid)])]
            constructor
            · intro H s hs hserr
              by_cases hst : s = t
              · rw [hst]
                refine ⟨hlk, ?_⟩
                have hnotmem : t ∉ ts := by
                  intro hmem
                  rcases H t hmem hterr with ⟨h1, _⟩
                  rw [lookup_append_singleton_self nid hlk] at h1
                  cases h1
                rw [List.count_cons, beq_self_eq_true]
                simp [List.count_eq_zero.mpr hnotmem]
              · have hsmem : s ∈ ts := by
                  rcases List.mem_cons.mp hs with hEq | hmem
                  · exact absurd hEq hst
                  · exact hmem
                rcases H s hsmem hserr with ⟨h1, h2⟩
                rw [lookup_append_singleton_ne nid hst] at h1
                refine ⟨h1, ?_⟩
                rw [List.count_cons,
                  beq_eq_false_iff_ne.mpr fun hEq => hst hEq.symm]
                simpa using h2
            · intro H s hsmem hserr
              have hst : s ≠ t := by
                intro hEq
                rw [hEq] at hsmem
                rcases H t (List.mem_cons_self _ _) hterr with ⟨_, h2⟩
                have hone : 1 ≤ ts.count t := List.one_le_count_iff.mpr hsmem
                rw [List.count_cons, beq_self_eq_true] at h2
                simp at h2
                omega
              rcases H s (List.mem_cons_of_mem _ hsmem) hserr with ⟨h1, h2⟩
              refine ⟨?_, ?_⟩
              · rw [lookup_append_singleton_ne nid hst]
                exact h1
              · rw [List.count_cons,
                  beq_eq_false_iff_ne.mpr fun hEq => hst hEq.symm] at h2
                simpa using h2

/-! ### AddNode lemmas -/

theorem AddNode_name_dup (r : Resolver) (nm : String) (item : Item)
    (hname : r.names.contains nm = true) :
    AddNode r nm item = (some "Name provided by multiple nodes", r) := by
  unfold AddNode
  rw [hname]
  rfl

theorem AddNode_nilItem (r : Resolver) (nm : String)
    (hname : r.names.contains nm = false) :
    AddNode r nm .nilItem = (some "Factory cannot be nil", r) := by
  unfold AddNode
  rw [hname]
  rfl

theorem AddNode_notFunc (r : Resolver) (nm : String)
    (hname : r.names.contains nm = false) :
    AddNode r nm .notFunc = (some "Factory is not a func", r) := by
  unfold AddNode
  rw [hname]
  rfl

theorem AddNode_fn (r : Resolver) (nm : String) (req prov : List Ty)
    (outs : List Val) (hname : r.names.contains nm = false) :
    AddNode r nm (.fn req prov outs) =
      match addProvides r.nextId r.providedBy prov with
      | (some e, pb) =>
          (some e, { r with providedBy := pb, nextId := r.nextId + 1 })
      | (none, pb) =>
          (none, { r with
            nodes := r.nodes ++ [⟨r.nextId, nm, prov, req, outs⟩],
            names := r.names ++ [nm],
            providedBy := pb,
            nextId := r.nextId + 1 }) := by
  unfold AddNode
  rw [hname]
  rfl

theorem bool_eq_false_of_not {b : Bool} (h : ¬ b = true) : b = false := by
  cases hb : b
  · rfl
  · exact absurd hb h

theorem addNode_fn_fst (r : Resolver) (nm : String) (req prov : List Ty)
    (outs : List Val) (hname : r.names.contains nm = false) :
    (AddNode r nm (.fn req prov outs)).1 =
      (addProvides r.nextId r.providedBy prov).1 := by
  rw [AddNode_fn r nm req prov outs hname]
  rcases haddp : addProvides r.nextId r.providedBy prov with ⟨e, pb⟩
  cases e <;> rfl

theorem addNode_failure_effects (r : Resolver) (nm : String) (item : Item)
    (h : (AddNode r nm item).1.isSome = true) :
    (AddNode r nm item).2.nodes = r.nodes ∧
    (AddNode r nm item).2.names = r.names ∧
    ∃ extra, (AddNode r nm item).2.providedBy = r.providedBy ++ extra ∧
      (extra ≠ [] →
        (AddNode r nm item).1 =
          some "Type provided by multiple constructors") := by
  by_cases hname : r.names.contains nm
  · rw [AddNode_name_dup r nm item hname]
    exact ⟨rfl, rfl, [], by simp, fun hx => absurd rfl hx⟩
  · have hname' : r.names.contains nm = false := bool_eq_false_of_not hname
    cases item with
    | nilItem =>
        rw [AddNode_nilItem r nm hname']
        exact ⟨rfl, rfl, [], by simp, fun hx => absurd rfl hx⟩
    | notFunc =>
        rw [AddNode_notFunc r nm hname']
        exact ⟨rfl, rfl, [], by simp, fun hx => absurd rfl hx⟩
    | fn req prov outs =>
        rw [AddNode_fn r nm req prov outs hname'] at h ⊢
        rcases haddp : addProvides r.nextId r.providedBy prov with ⟨e, pb⟩
        rw [haddp] at h
        cases e with
        | none => exact absurd h Bool.false_ne_true
        | some msg =>
            have hsnd := addProvides_snd_append r.nextId r.providedBy prov
            rw [haddp] at hsnd
            rcases hsnd with ⟨extra, hx⟩
            refine ⟨rfl, rfl, extra, hx, ?_⟩
            intro _
            have hcases := addProvides_fst_cases r.nextId r.providedBy prov
            rw [haddp] at hcases
            rcases hcases with h1 | h1
            · cases h1
            · simp only at h1
              rw [h1]

theorem addNode_success_appends (r : Resolver) (nm : String) (item : Item)
    (h : (AddNode r nm item).1 = none) :
    ∃ n, (AddNode r nm item).2.nodes = r.nodes ++ [n] := by
  by_cases hname : r.names.contains nm
  · rw [AddNode_name_dup r nm item hname] at h
    cases h
  · have hname' : r.names.contains nm = false := bool_eq_false_of_not hname
    cases item with
    | nilItem =>
        rw [AddNode_nilItem r nm hname'] at h
        cases h
    | notFunc =>
        rw [AddNode_notFunc r nm hname'] at h
        cases h
    | fn req prov outs =>
        rw [AddNode_fn r nm req prov outs hname'] at h ⊢
        rcases haddp : addProvides r.nextId r.providedBy prov with ⟨e, pb⟩
        rw [haddp] at h
        cases e with
        | none => exact ⟨_, rfl⟩
        | some msg => exact Option.noConfusion h

/-! ### missingDeps lemmas -/

theorem mem_missingDeps_iff {r : Resolver} {t : Ty} :
    t ∈ missingDeps r ↔
      ∃ n ∈ r.nodes, t ∈ n.requires ∧ r.providedBy.lookup t = none := by
  unfold missingDeps
  rw [List.mem_dedup, List.mem_flatMap]
  constructor
  · rintro ⟨n, hn, hmem⟩
    rcases List.mem_filter.mp hmem with ⟨ht, hnone⟩
    exact ⟨n, hn, ht, Option.isNone_iff_eq_none.mp hnone⟩
  · rintro ⟨n, hn, ht, hnone⟩
    exact ⟨n, hn, List.mem_filter.mpr ⟨ht, by simp [hnone]⟩⟩

theorem missingDeps_nodup (r : Resolver) : (missingDeps r).Nodup :=
  List.nodup_dedup _

theorem missingDeps_eq_nil_of_satisfied {r : Resolver} (h : Satisfied r) :
    missingDeps r = [] := by
  rw [List.eq_nil_iff_forall_not_mem]
  intro t hmem
  rcases mem_missingDeps_iff.mp hmem with ⟨n, hn, ht, hnone⟩
  have := h n hn t ht
  rw [hnone] at this
  cases this

/-! ### Inv translation lemmas -/

theorem lookup_none_iff_noProducer {r : Resolver} (hInv : Inv r) (t : Ty) :
    r.providedBy.lookup t = none ↔ NoProducer r t := by
  obtain ⟨hnd, hsound, hcomp⟩ := hInv
  constructor
  · intro hnone m hm htp
    by_contra herr
    have hf : t.isErr = false := bool_eq_false_of_not herr
    rcases hcomp m hm t htp hf with ⟨p, hp, hpt⟩
    have hsome : (r.providedBy.lookup t).isSome = true :=
      lookup_isSome_iff.mpr ⟨p, hp, hpt⟩
    rw [hnone] at hsome
    cases hsome
  · intro hnp
    cases hlk : r.providedBy.lookup t with
    | none => rfl
    | some i =>
        have hmem := lookup_eq_some_mem hlk
        rcases hsound (t, i) hmem with ⟨herr, n, hn, _, htp⟩
        have := hnp n hn htp
        rw [this] at herr
        cases herr

theorem lookup_isSome_iff_producer {r : Resolver} (hInv : Inv r) {t : Ty}
    (hf : t.isErr = false) :
    (r.providedBy.lookup t).isSome = true ↔ ∃ m ∈ r.nodes, t ∈ m.provides := by
  obtain ⟨hnd, hsound, hcomp⟩ := hInv
  constructor
  · intro hsome
    rcases Option.isSome_iff_exists.mp hsome with ⟨i, hi⟩
    have hmem := lookup_eq_some_mem hi
    rcases hsound (t, i) hmem with ⟨herr, n, hn, _, htp⟩
    exact ⟨n, hn, htp⟩
  · rintro ⟨m, hm, htp⟩
    rcases hcomp m hm t htp hf with ⟨p, hp, hpt⟩
    exact lookup_isSome_iff.mpr ⟨p, hp, hpt⟩

/-! ### processVals and runOrder lemmas -/

theorem processVals_error_iff (store : List (Ty × Val)) (vals : List Val)
    (v : Val) :
    processVals store vals = .error (.factoryFailed v) ↔
      firstFailure vals = some v := by
  induction vals generalizing store with
  | nil =>
      simp [processVals, firstFailure]
  | cons w ws ih =>
      cases hw : (w.ty.isErr && w.payload.isSome) with
      | true =>
          simp [processVals, hw, firstFailure, List.find?_cons]
      | false =>
          have hstep : processVals store (w :: ws) =
              processVals (storeSet store w.ty w) ws := by
            simp [processVals, hw]
          have hff : firstFailure (w :: ws) = firstFailure ws := by
            simp [firstFailure, List.find?_cons, hw]
          rw [hstep, hff]
          exact ih (storeSet store w.ty w)

theorem processVals_ok_of_no_failure :
    ∀ (vals : List Val) (store : List (Ty × Val)),
      firstFailure vals = none →
      ∃ s, processVals store vals = .ok s ∧
        (∀ u, (store.lookup u).isSome = true → (s.lookup u).isSome = true) ∧
        ∀ v ∈ vals, (s.lookup v.ty).isSome = true := by
  intro vals
  induction vals with
  | nil =>
      intro store _
      exact ⟨store, rfl, fun u hu => hu, by simp⟩
  | cons w ws ih =>
      intro store h
      cases hw : (w.ty.isErr && w.payload.isSome) with
      | true =>
          rw [show firstFailure (w :: ws) = some w by
            simp [firstFailure, List.find?_cons, hw]] at h
          cases h
      | false =>
          have hws : firstFailure ws = none := by
            rw [show firstFailure (w :: ws) = firstFailure ws by
              simp [firstFailure, List.find?_cons, hw]] at h
            exact h
          rcases ih (storeSet store w.ty w) hws with ⟨s, hok, hpres, hall⟩
          refine ⟨s, ?_, ?_, ?_⟩
          · rw [show processVals store (w :: ws) =
                processVals (storeSet store w.ty w) ws by
              simp [processVals, hw]]
            exact hok
          · intro u hu
            exact hpres u (storeSet_lookup_isSome_of hu)
          · intro v hv
            rcases List.mem_cons.mp hv with rfl | hv
            · exact hpres _ (by simp [storeSet_lookup_self])
            · exact hall v hv

theorem runOrder_append (s : List (Ty × Val)) (l₁ l₂ : List FuncNode) :
    runOrder s (l₁ ++ l₂) =
      match runOrder s l₁ with
      | .error e => .error e
      | .ok s' => runOrder s' l₂ := by
  induction l₁ generalizing s with
  | nil => simp [runOrder]
  | cons n rest ih =>
      rcases h1 : invokeNode s n with e | vals
      · simp [runOrder, h1]
      · rcases h2 : processVals s vals with e | s'
        · simp [runOrder, h1, h2]
        · simp [runOrder, h1, h2, ih s']

/-! ### Kahn elimination lemmas -/

theorem kahnLoop_succ (sched : Nat → List FuncNode → List FuncNode)
    (fuel round : Nat) (st : List (FuncNode × List Nat))
    (acc : List FuncNode) :
    kahnLoop sched (fuel + 1) round st acc =
      if st.isEmpty then .ok acc
      else if (kahnReady st).isEmpty then .error .circularDependency
      else kahnLoop sched fuel (round + 1) (kahnNext st)
        (acc ++ sched round (kahnReady st)) := rfl

theorem stNodes_kahnNext (st : List (FuncNode × List Nat)) :
    stNodes (kahnNext st) = (st.filter fun p => !p.2.isEmpty).map Prod.fst := by
  unfold stNodes kahnNext
  rw [List.map_map]
  rfl

theorem kahnReady_mem {st : List (FuncNode × List Nat)} {n : FuncNode} :
    n ∈ kahnReady st ↔ ∃ p ∈ st, p.2 = [] ∧ p.1 = n := by
  unfold kahnReady
  constructor
  · intro h
    rcases List.mem_map.mp h with ⟨p, hp, hpn⟩
    rcases List.mem_filter.mp hp with ⟨hmem, hempty⟩
    exact ⟨p, hmem, List.isEmpty_iff.mp hempty, hpn⟩
  · rintro ⟨p, hmem, hempty, hpn⟩
    exact List.mem_map.mpr ⟨p, List.mem_filter.mpr ⟨hmem, by simp [hempty]⟩, hpn⟩

theorem kahnNext_mem {st : List (FuncNode × List Nat)}
    {p' : FuncNode × List Nat} :
    p' ∈ kahnNext st ↔ ∃ p ∈ st, p.2 ≠ [] ∧
      p' = (p.1, p.2.filter fun d =>
        !((kahnReady st).map FuncNode.nid).contains d) := by
  unfold kahnNext
  constructor
  · intro h
    rcases List.mem_map.mp h with ⟨p, hp, hpe⟩
    rcases List.mem_filter.mp hp with ⟨hmem, hne⟩
    refine ⟨p, hmem, ?_, hpe.symm⟩
    intro hnil
    rw [hnil] at hne
    simp at hne
  · rintro ⟨p, hmem, hne, hpe⟩
    refine List.mem_map.mpr ⟨p, List.mem_filter.mpr ⟨hmem, ?_⟩, hpe.symm⟩
    simp [hne]

theorem stNodes_kahnNext_mem {st : List (FuncNode × List Nat)}
    {n : FuncNode} :
    n ∈ stNodes (kahnNext st) ↔ ∃ p ∈ st, p.2 ≠ [] ∧ p.1 = n := by
  rw [stNodes_kahnNext]
  constructor
  · intro h
    rcases List.mem_map.mp h with ⟨p, hp, hpn⟩
    rcases List.mem_filter.mp hp with ⟨hmem, hne⟩
    refine ⟨p, hmem, ?_, hpn⟩
    intro hnil
    rw [hnil] at hne
    simp at hne
  · rintro ⟨p, hmem, hne, hpn⟩
    exact List.mem_map.mpr ⟨p, List.mem_filter.mpr ⟨hmem, by simp [hne]⟩, hpn⟩

theorem stNodes_mem {st : List (FuncNode × List Nat)} {n : FuncNode} :
    n ∈ stNodes st ↔ ∃ p ∈ st, p.1 = n := by
  unfold stNodes
  exact List.mem_map

theorem stNodes_kahnNext_subset {st : List (FuncNode × List Nat)}
    {n : FuncNode} (h : n ∈ stNodes (kahnNext st)) : n ∈ stNodes st := by
  rcases stNodes_kahnNext_mem.mp h with ⟨p, hp, _, hpn⟩
  exact stNodes_mem.mpr ⟨p, hp, hpn⟩

theorem kahnReady_append_perm (st : List (FuncNode × List Nat)) :
    (kahnReady st ++ stNodes (kahnNext st)).Perm (stNodes st) := by
  rw [stNodes_kahnNext]
  unfold kahnReady stNodes
  rw [← List.map_append]
  exact (List.filter_append_perm _ st).map Prod.fst

theorem kahnNext_length_lt {st : List (FuncNode × List Nat)}
    (h : kahnReady st ≠ []) : (kahnNext st).length < st.length := by
  unfold kahnNext
  rw [List.length_map]
  apply List.length_filter_lt_length_iff_exists.mpr
  unfold kahnReady at h
  have hf : st.filter (fun p => p.2.isEmpty) ≠ [] := by
    intro hnil
    rw [hnil] at h
    simp at h
  rcases List.exists_mem_of_ne_nil _ hf with ⟨x, hx⟩
  rcases List.mem_filter.mp hx with ⟨hmem, hempty⟩
  exact ⟨x, hmem, by simp [hempty]⟩

theorem st_nid_map (st : List (FuncNode × List Nat)) :
    (stNodes st).map FuncNode.nid = st.map fun p => p.1.nid := by
  unfold stNodes
  rw [List.map_map]
  rfl

theorem entry_unique {st : List (FuncNode × List Nat)}
    (hnd : ((stNodes st).map FuncNode.nid).Nodup)
    {p q : FuncNode × List Nat} (hp : p ∈ st) (hq : q ∈ st)
    (h : p.1.nid = q.1.nid) : p = q := by
  rw [st_nid_map] at hnd
  exact List.inj_on_of_nodup_map hnd hp hq h

theorem kahnNext_nid_nodup {st : List (FuncNode × List Nat)}
    (hnd : ((stNodes st).map FuncNode.nid).Nodup) :
    ((stNodes (kahnNext st)).map FuncNode.nid).Nodup := by
  rw [st_nid_map] at hnd
  have h1 : (stNodes (kahnNext st)).map FuncNode.nid =
      (st.filter fun p => !p.2.isEmpty).map fun p => p.1.nid := by
    rw [stNodes_kahnNext, List.map_map]
    rfl
  rw [h1]
  exact List.Nodup.sublist ((List.filter_sublist st).map _) hnd

theorem kahnNext_K3 {r : Resolver} {st : List (FuncNode × List Nat)}
    (hK3 : ∀ p ∈ st, ∀ d ∈ p.2, ∃ q ∈ st, q.1.nid = d ∧ Edge r q.1 p.1) :
    ∀ p' ∈ kahnNext st, ∀ d ∈ p'.2,
      ∃ q' ∈ kahnNext st, q'.1.nid = d ∧ Edge r q'.1 p'.1 := by
  intro p' hp' d hd
  rcases kahnNext_mem.mp hp' with ⟨p, hp, hpne, hpe⟩
  rw [hpe] at hd
  rcases List.mem_filter.mp hd with ⟨hdp, hdnot⟩
  have hdmem : d ∉ (kahnReady st).map FuncNode.nid := by simpa using hdnot
  rcases hK3 p hp d hdp with ⟨q, hq, hqnid, hedge⟩
  have hqne : q.2 ≠ [] := by
    intro hnil
    apply hdmem
    rw [← hqnid]
    exact List.mem_map.mpr ⟨q.1, kahnReady_mem.mpr ⟨q, hq, hnil, rfl⟩, rfl⟩
  refine ⟨(q.1, q.2.filter fun x =>
      !((kahnReady st).map FuncNode.nid).contains x),
    kahnNext_mem.mpr ⟨q, hq, hqne, rfl⟩, hqnid, ?_⟩
  rw [hpe]
  exact hedge

theorem kahnNext_K4 {r : Resolver} {st : List (FuncNode × List Nat)}
    (hnd : ((stNodes st).map FuncNode.nid).Nodup)
    (hK4 : ∀ p ∈ st, ∀ m, Edge r m p.1 → m ∈ stNodes st → m.nid ∈ p.2) :
    ∀ p' ∈ kahnNext st, ∀ m, Edge r m p'.1 →
      m ∈ stNodes (kahnNext st) → m.nid ∈ p'.2 := by
  intro p' hp' m hedge hm
  rcases kahnNext_mem.mp hp' with ⟨p, hp, hpne, hpe⟩
  rw [hpe] at hedge ⊢
  have hmst : m ∈ stNodes st := stNodes_kahnNext_subset hm
  have hmem : m.nid ∈ p.2 := hK4 p hp m hedge hmst
  refine List.mem_filter.mpr ⟨hmem, ?_⟩
  have hnotin : m.nid ∉ (kahnReady st).map FuncNode.nid := by
    intro hx
    rcases List.mem_map.mp hx with ⟨w, hwready, hwx⟩
    rcases kahnReady_mem.mp hwready with ⟨pw, hpw, hpwnil, hpww⟩
    rcases stNodes_kahnNext_mem.mp hm with ⟨pm, hpm, hpmne, hpmm⟩
    have hpe2 : pw = pm := by
      apply entry_unique hnd hpw hpm
      rw [hpww, hpmm]
      exact hwx
    rw [hpe2] at hpwnil
    exact hpmne hpwnil
  simpa using hnotin

theorem kahnLoop_perm {sched : Nat → List FuncNode → List FuncNode}
    (hs : ValidSched sched) :
    ∀ (fuel round : Nat) (st : List (FuncNode × List Nat))
      (acc o : List FuncNode),
      kahnLoop sched fuel round st acc = .ok o →
      o.Perm (acc ++ stNodes st) := by
  intro fuel
  induction fuel with
  | zero =>
      intro round st acc o h
      cases h
  | succ f ih =>
      intro round st acc o h
      rw [kahnLoop_succ] at h
      by_cases hre : st.isEmpty
      · rw [if_pos hre] at h
        cases h
        rw [List.isEmpty_iff.mp hre]
        simp [stNodes]
  -- nonempty state: recurse
      · rw [if_neg hre] at h
        by_cases hready : (kahnReady st).isEmpty
        · rw [if_pos hready] at h
          cases h
        · rw [if_neg hready] at h
          have hp := ih (round + 1) (kahnNext st)
            (acc ++ sched round (kahnReady st)) o h
          refine hp.trans ?_
          rw [List.append_assoc]
          refine List.Perm.append_left acc ?_
          exact ((hs round _).append (List.Perm.refl _)).trans
            (kahnReady_append_perm st)

theorem kahnLoop_sound {r : Resolver}
    {sched : Nat → List FuncNode → List FuncNode} (hs : ValidSched sched)
    (hnd : (r.nodes.map FuncNode.nid).Nodup) (hacy : Acyclic r) :
    ∀ (fuel : Nat) (st : List (FuncNode × List Nat))
      (acc : List FuncNode) (round : Nat),
      st.length < fuel →
      (acc ++ stNodes st).Perm r.nodes →
      (∀ p ∈ st, ∀ d ∈ p.2, ∃ q ∈ st, q.1.nid = d ∧ Edge r q.1 p.1) →
      (∀ p ∈ st, ∀ m, Edge r m p.1 → m ∈ stNodes st → m.nid ∈ p.2) →
      (∀ n ∈ acc, ∀ m, Edge r m n → Precedes acc m n) →
      ∃ o, kahnLoop sched fuel round st acc = .ok o ∧
        ∀ n ∈ o, ∀ m, Edge r m n → Precedes o m n := by
  intro fuel
  induction fuel with
  | zero =>
      intro st acc round hlt
      exact absurd hlt (Nat.not_lt_zero _)
  | succ f ih =>
      intro st acc round hlt hperm hK3 hK4 hK5
      by_cases hre : st.isEmpty
      · exact ⟨acc, by rw [kahnLoop_succ, if_pos hre], hK5⟩
      · have hndst : ((stNodes st).map FuncNode.nid).Nodup := by
          have h1 := (hperm.map FuncNode.nid).symm.nodup hnd
          rw [List.map_append] at h1
          exact h1.of_append_right
        have hreadyne : kahnReady st ≠ [] := by
          intro hempty
          have hSne : stNodes st ≠ [] := by
            intro hnil
            apply hre
            unfold stNodes at hnil
            rw [List.isEmpty_iff]
            exact List.map_eq_nil_iff.mp hnil
          have hsub : ∀ x ∈ stNodes st, x ∈ r.nodes := fun x hx =>
            hperm.mem_iff.mp (List.mem_append.mpr (Or.inr hx))
          rcases hacy (stNodes st) hSne hsub with ⟨a, ha, hnoedge⟩
          rcases stNodes_mem.mp ha with ⟨p, hp, hpa⟩
          have hp2 : p.2 = [] := by
            cases hd : p.2 with
            | nil => rfl
            | cons d ds =>
                rcases hK3 p hp d (by rw [hd]; exact List.mem_cons_self _ _)
                  with ⟨q, hq, _, hedge⟩
                rw [hpa] at hedge
                exact absurd hedge
                  (hnoedge q.1 (stNodes_mem.mpr ⟨q, hq, rfl⟩))
          have : a ∈ kahnReady st := kahnReady_mem.mpr ⟨p, hp, hp2, hpa⟩
          rw [hempty] at this
          cases this
        have hready : ¬ (kahnReady st).isEmpty := by
          intro hx
          exact hreadyne (List.isEmpty_iff.mp hx)
        have hlen : (kahnNext st).length < f :=
          lt_of_lt_of_le (kahnNext_length_lt hreadyne)
            (Nat.lt_succ_iff.mp hlt)
        have hperm2 : ((acc ++ sched round (kahnReady st)) ++
            stNodes (kahnNext st)).Perm r.nodes := by
          refine List.Perm.trans ?_ hperm
          rw [List.append_assoc]
          refine List.Perm.append_left acc ?_
          exact ((hs round _).append (List.Perm.refl _)).trans
            (kahnReady_append_perm st)
        have hK5' : ∀ n ∈ acc ++ sched round (kahnReady st), ∀ m,
            Edge r m n → Precedes (acc ++ sched round (kahnReady st)) m n := by
          intro n hn m hedge
          rcases List.mem_append.mp hn with hna | hnr
          · exact precedes_append_left (hK5 n hna m hedge)
          · have hnready : n ∈ kahnReady st := (hs round _).mem_iff.mp hnr
            rcases kahnReady_mem.mp hnready with ⟨p, hp, hp2, hpn⟩
            have hmnot : m ∉ stNodes st := by
              intro hmst
              have := hK4 p hp m (by rw [hpn]; exact hedge) hmst
              rw [hp2] at this
              cases this
            have hmnodes : m ∈ r.nodes := hedge.1
            have hmacc : m ∈ acc := by
              rcases List.mem_append.mp (hperm.symm.mem_iff.mp hmnodes)
                with hx | hx
              · exact hx
              · exact absurd hx hmnot
            exact precedes_of_mem_append hmacc hnr
        rcases ih (kahnNext st) (acc ++ sched round (kahnReady st))
          (round + 1) hlen hperm2 (kahnNext_K3 hK3) (kahnNext_K4 hndst hK4)
          hK5' with ⟨o, hok, htopo⟩
        refine ⟨o, ?_, htopo⟩
        rw [kahnLoop_succ, if_neg hre, if_neg hready]
        exact hok

theorem kahnLoop_cycle {r : Resolver}
    {sched : Nat → List FuncNode → List FuncNode} :
    ∀ (fuel : Nat) (st : List (FuncNode × List Nat))
      (acc : List FuncNode) (round : Nat) (S : List FuncNode),
      S ≠ [] →
      (∀ x ∈ S, x ∈ stNodes st) →
      (∀ a ∈ S, ∃ b ∈ S, Edge r b a) →
      ((stNodes st).map FuncNode.nid).Nodup →
      (∀ p ∈ st, ∀ m, Edge r m p.1 → m ∈ stNodes st → m.nid ∈ p.2) →
      kahnLoop sched fuel round st acc = .error .circularDependency := by
  intro fuel
  induction fuel with
  | zero =>
      intro st acc round S _ _ _ _ _
      rfl
  | succ f ih =>
      intro st acc round S hSne hSsub hScyc hnd hK4
      have hre : ¬ st.isEmpty := by
        intro hempty
        rcases List.exists_mem_of_ne_nil S hSne with ⟨a, ha⟩
        have := hSsub a ha
        unfold stNodes at this
        rw [List.isEmpty_iff.mp hempty] at this
        cases this
      by_cases hready : (kahnReady st).isEmpty
      · rw [kahnLoop_succ, if_neg hre, if_pos hready]
      · rw [kahnLoop_succ, if_neg hre, if_neg hready]
        apply ih (kahnNext st) _ (round + 1) S hSne
        · intro a ha
          rcases stNodes_mem.mp (hSsub a ha) with ⟨p, hp, hpa⟩
          have hpne : p.2 ≠ [] := by
            intro hnil
            rcases hScyc a ha with ⟨b, hb, hedge⟩
            have hbst : b ∈ stNodes st := hSsub b hb
            have := hK4 p hp b (by rw [hpa]; exact hedge) hbst
            rw [hnil] at this
            cases this
          exact stNodes_kahnNext_mem.mpr ⟨p, hp, hpne, hpa⟩
        · exact hScyc
        · exact kahnNext_nid_nodup hnd
        · exact kahnNext_K4 hnd hK4

/-! ### initState, getOrder and Resolve lemmas -/

theorem stNodes_initState (r : Resolver) :
    stNodes (initState r) = r.nodes := by
  unfold stNodes initState
  rw [List.map_map]
  exact List.map_id r.nodes

theorem initState_length (r : Resolver) :
    (initState r).length = r.nodes.length := by
  unfold initState
  rw [List.length_map]

theorem initState_K3 {r : Resolver} (hInv : Inv r) :
    ∀ p ∈ initState r, ∀ d ∈ p.2,
      ∃ q ∈ initState r, q.1.nid = d ∧ Edge r q.1 p.1 := by
  intro p hp d hd
  rcases List.mem_map.mp hp with ⟨n, hn, hpe⟩
  rw [← hpe] at hd ⊢
  rcases List.mem_filterMap.mp hd with ⟨t, ht, hlk⟩
  rcases hInv.2.1 (t, d) (lookup_eq_some_mem hlk) with ⟨_, m, hm, hmnid, _⟩
  refine ⟨(m, depsOf r m), List.mem_map.mpr ⟨m, hm, rfl⟩, hmnid, ?_⟩
  exact ⟨hm, hn, t, ht, by rw [hlk, hmnid]⟩

theorem initState_K4 {r : Resolver} :
    ∀ p ∈ initState r, ∀ m, Edge r m p.1 →
      m ∈ stNodes (initState r) → m.nid ∈ p.2 := by
  intro p hp m hedge _
  rcases List.mem_map.mp hp with ⟨n, hn, hpe⟩
  rw [← hpe] at hedge ⊢
  rcases hedge with ⟨_, _, t, ht, hlk⟩
  exact List.mem_filterMap.mpr ⟨t, ht, hlk⟩

theorem getOrder_eq_kahn {sched : Nat → List FuncNode → List FuncNode}
    {r : Resolver} (h : missingDeps r = []) :
    getOrder sched r =
      kahnLoop sched (r.nodes.length + 1) 0 (initState r) [] := by
  unfold getOrder
  rw [h]
  rfl

theorem getOrder_eq_missing {sched : Nat → List FuncNode → List FuncNode}
    {r : Resolver} (h : missingDeps r ≠ []) :
    getOrder sched r = .error (.missingDependencies (missingDeps r)) := by
  unfold getOrder
  have hf : (missingDeps r).isEmpty = false := by
    cases hx : (missingDeps r).isEmpty
    · rfl
    · exact absurd (List.isEmpty_iff.mp hx) h
  rw [hf]
  rfl

theorem Resolve_error {sched : Nat → List FuncNode → List FuncNode}
    {r : Resolver} {e : ResolveError} (h : getOrder sched r = .error e) :
    Resolve sched r = .error e := by
  unfold Resolve
  rw [h]

theorem Resolve_ok {sched : Nat → List FuncNode → List FuncNode}
    {r : Resolver} {o : List FuncNode} (h : getOrder sched r = .ok o) :
    Resolve sched r = createInjector o := by
  unfold Resolve
  rw [h]

/-! ### Store determinism lemmas -/

theorem invokeNode_ok_eq {store : List (Ty × Val)} {n : FuncNode}
    {vals : List Val} (h : invokeNode store n = .ok vals) :
    vals = n.outputs := by
  unfold invokeNode at h
  by_cases hall : (n.requires.all fun t => (store.lookup t).isSome) = true
  · rw [hall] at h
    simp at h
    exact h.symm
  · rw [bool_eq_false_of_not hall] at h
    simp at h

theorem processVals_ok_no_failure :
    ∀ (vals : List Val) (store s : List (Ty × Val)),
      processVals store vals = .ok s →
      ∀ v ∈ vals, v.ty.isErr = true → v.payload = none := by
  intro vals
  induction vals with
  | nil =>
      intro store s _ v hv
      cases hv
  | cons w ws ih =>
      intro store s h v hv herr
      cases hw : (w.ty.isErr && w.payload.isSome) with
      | true =>
          rw [show processVals store (w :: ws) =
              .error (.factoryFailed w) by simp [processVals, hw]] at h
          cases h
      | false =>
          rw [show processVals store (w :: ws) =
              processVals (storeSet store w.ty w) ws by
            simp [processVals, hw]] at h
          rcases List.mem_cons.mp hv with rfl | hv2
          · cases hp : v.payload with
            | none => rfl
            | some x =>
                rw [herr, hp] at hw
                simp at hw
          · exact ih (storeSet store w.ty w) s h v hv2 herr

theorem runOrder_ok_no_failure :
    ∀ (o : List FuncNode) (store s : List (Ty × Val)),
      runOrder store o = .ok s →
      ∀ n ∈ o, ∀ v ∈ n.outputs, v.ty.isErr = true → v.payload = none := by
  intro o
  induction o with
  | nil =>
      intro store s _ n hn
      cases hn
  | cons m rest ih =>
      intro store s h n hn v hv herr
      rcases h1 : invokeNode store m with e | vals
      · simp [runOrder, h1] at h
      · rcases h2 : processVals store vals with e | s1
        · simp [runOrder, h1, h2] at h
        · have hvals := invokeNode_ok_eq h1
          subst hvals
          have h3 : runOrder s1 rest = .ok s := by
            simpa [runOrder, h1, h2] using h
          rcases List.mem_cons.mp hn with rfl | hn2
          · exact processVals_ok_no_failure n.outputs store s1 h2 v hv herr
          · exact ih s1 s h3 n hn2 v hv herr

theorem processVals_ok_lookup :
    ∀ (vals : List Val) (store s : List (Ty × Val)),
      processVals store vals = .ok s → ∀ u : Ty,
      s.lookup u =
        ((vals.filter fun v => v.ty == u).getLast?).or (store.lookup u) := by
  intro vals
  induction vals with
  | nil =>
      intro store s h u
      simp only [processVals] at h
      injection h with h2
      subst h2
      simp
  | cons w ws ih =>
      intro store s h u
      cases hw : (w.ty.isErr && w.payload.isSome) with
      | true =>
          rw [show processVals store (w :: ws) =
              .error (.factoryFailed w) by simp [processVals, hw]] at h
          cases h
      | false =>
          rw [show processVals store (w :: ws) =
              processVals (storeSet store w.ty w) ws by
            simp [processVals, hw]] at h
          have hIH := ih (storeSet store w.ty w) s h u
          by_cases hwu : w.ty = u
          · subst hwu
            rw [storeSet_lookup_self] at hIH
            rw [show (List.filter (fun v => v.ty == w.ty) (w :: ws)) =
                w :: List.filter (fun v => v.ty == w.ty) ws by
              simp [List.filter_cons]]
            cases hws : List.filter (fun v => v.ty == w.ty) ws with
            | nil =>
                rw [hws] at hIH
                simpa using hIH
            | cons a l =>
                rw [hws] at hIH
                rw [List.getLast?_cons_cons]
                rcases hlast : (a :: l).getLast? with _ | x
                · exact absurd (List.getLast?_eq_none_iff.mp hlast)
                    (by simp)
                · rw [hlast] at hIH
                  simpa using hIH
          · have hbeq : (w.ty == u) = false := beq_eq_false_iff_ne.mpr hwu
            rw [storeSet_lookup_ne fun hEq => hwu hEq.symm] at hIH
            rw [show (List.filter (fun v => v.ty == u) (w :: ws)) =
                List.filter (fun v => v.ty == u) ws by
              simp [List.filter_cons, hbeq]]
            exact hIH

theorem runOrder_ok_lookup :
    ∀ (o : List FuncNode) (store s : List (Ty × Val)),
      runOrder store o = .ok s → ∀ u : Ty,
      s.lookup u =
        (((o.flatMap FuncNode.outputs).filter fun v =>
          v.ty == u).getLast?).or (store.lookup u) := by
  intro o
  induction o with
  | nil =>
      intro store s h u
      simp only [runOrder] at h
      injection h with h2
      subst h2
      simp
  | cons n rest ih =>
      intro store s h u
      rcases h1 : invokeNode store n with e | vals
      · simp [runOrder, h1] at h
      · rcases h2 : processVals store vals with e | s1
        · simp [runOrder, h1, h2] at h
        · have hvals := invokeNode_ok_eq h1
          subst hvals
          have h3 : runOrder s1 rest = .ok s := by
            simpa [runOrder, h1, h2] using h
          have hstep := processVals_ok_lookup n.outputs store s1 h2 u
          have hrest := ih s1 s h3 u
          rw [hrest, hstep, List.flatMap_cons, List.filter_append,
            List.getLast?_append, Option.or_assoc]

theorem writes_nil_of_no_writer (u : Ty) (o : List FuncNode)
    (h : ∀ n ∈ o, ∀ v ∈ n.outputs, v.ty ≠ u) :
    (o.flatMap FuncNode.outputs).filter (fun v => v.ty == u) = [] := by
  rw [List.filter_eq_nil_iff]
  intro v hv
  rcases List.mem_flatMap.mp hv with ⟨n, hn, hvn⟩
  simp [h n hn v hvn]

theorem writes_eq_of_writer (u : Ty) :
    ∀ (o : List FuncNode), o.Nodup →
      (∀ n ∈ o, ∀ m ∈ o, (∃ v ∈ n.outputs, v.ty = u) →
        (∃ w ∈ m.outputs, w.ty = u) → n = m) →
      ∀ n₀, n₀ ∈ o → (∃ v ∈ n₀.outputs, v.ty = u) →
      (o.flatMap FuncNode.outputs).filter (fun v => v.ty == u) =
        n₀.outputs.filter fun v => v.ty == u := by
  intro o
  induction o with
  | nil =>
      intro _ _ n₀ hn₀
      cases hn₀
  | cons n os ih =>
      intro hnd huniq n₀ hn₀ hwriter
      rw [List.flatMap_cons, List.filter_append]
      rcases List.mem_cons.mp hn₀ with rfl | hmem
      · have hrest : (os.flatMap FuncNode.outputs).filter
            (fun v => v.ty == u) = [] := by
          apply writes_nil_of_no_writer
          intro m hm v hv hvu
          have heq : n₀ = m := huniq n₀ (List.mem_cons_self _ _) m
            (List.mem_cons_of_mem _ hm) hwriter ⟨v, hv, hvu⟩
          rw [← heq] at hm
          exact (List.nodup_cons.mp hnd).1 hm
        rw [hrest, List.append_nil]
      · have hheadnil : n.outputs.filter (fun v => v.ty == u) = [] := by
          rw [List.filter_eq_nil_iff]
          intro v hv hbeq
          have hvu : v.ty = u := beq_iff_eq.mp hbeq
          have heq : n = n₀ := huniq n (List.mem_cons_self _ _) n₀
            (List.mem_cons_of_mem _ hmem) ⟨v, hv, hvu⟩ hwriter
          exact absurd hmem (heq ▸ (List.nodup_cons.mp hnd).1)
        rw [hheadnil, List.nil_append]
        exact ih (List.nodup_cons.mp hnd).2
          (fun a ha b hb => huniq a (List.mem_cons_of_mem _ ha) b
            (List.mem_cons_of_mem _ hb)) n₀ hmem hwriter

theorem runOrder_store_agree {r : Resolver}
    (houts : OutputsTyped r) (huniq : UniqueProducers r)
    (hnodesnd : r.nodes.Nodup)
    {o o' : List FuncNode} (hperm : o.Perm r.nodes)
    (hperm' : o'.Perm r.nodes) {s s' : List (Ty × Val)}
    (h : runOrder [] o = .ok s) (h' : runOrder [] o' = .ok s') :
    ∀ u, s.lookup u = s'.lookup u := by
  intro u
  have hla := runOrder_ok_lookup o [] s h u
  have hlb := runOrder_ok_lookup o' [] s' h' u
  rw [show (([] : List (Ty × Val)).lookup u) = none from rfl,
    Option.or_none] at hla hlb
  rw [hla, hlb]
  by_cases herr : u.isErr = true
  · have hchar : ∀ (oo : List FuncNode),
        (∀ n ∈ oo, ∀ v ∈ n.outputs, v.ty.isErr = true → v.payload = none) →
        ((oo.flatMap FuncNode.outputs).filter fun v =>
          v.ty == u).getLast? =
          if ∃ n ∈ oo, ∃ v ∈ n.outputs, v.ty = u then
            some ⟨u, none⟩ else none := by
      intro oo hnf
      by_cases hex : ∃ n ∈ oo, ∃ v ∈ n.outputs, v.ty = u
      · rw [if_pos hex]
        have hne : ((oo.flatMap FuncNode.outputs).filter fun v =>
            v.ty == u) ≠ [] := by
          rcases hex with ⟨n, hn, v, hv, hvu⟩
          intro hnil
          rw [List.filter_eq_nil_iff] at hnil
          exact hnil v (List.mem_flatMap.mpr ⟨n, hn, hv⟩) (by simp [hvu])
        rcases hlast : ((oo.flatMap FuncNode.outputs).filter fun v =>
            v.ty == u).getLast? with _ | w
        · exact absurd (List.getLast?_eq_none_iff.mp hlast) hne
        · have hwmem := List.mem_of_mem_getLast? hlast
          rcases List.mem_filter.mp hwmem with ⟨hwfm, hwbeq⟩
          have hwu : w.ty = u := beq_iff_eq.mp hwbeq
          rcases List.mem_flatMap.mp hwfm with ⟨n, hn, hwn⟩
          have hpay : w.payload = none :=
            hnf n hn w hwn (by rw [hwu]; exact herr)
          have hweq : w = ⟨u, none⟩ := by
            cases w with
            | mk wty wpay =>
                simp only at hwu hpay
                rw [hwu, hpay]
          rw [hlast, hweq]
      · rw [if_neg hex, writes_nil_of_no_writer u oo
          (fun n hn v hv hvu => hex ⟨n, hn, v, hv, hvu⟩)]
        rfl
    have hwa := runOrder_ok_no_failure o [] s h
    have hwb := runOrder_ok_no_failure o' [] s' h'
    rw [hchar o hwa, hchar o' hwb]
    have hiff : (∃ n ∈ o, ∃ v ∈ n.outputs, v.ty = u) ↔
        (∃ n ∈ o', ∃ v ∈ n.outputs, v.ty = u) := by
      constructor
      · rintro ⟨n, hn, hv⟩
        exact ⟨n, hperm'.mem_iff.mpr (hperm.mem_iff.mp hn), hv⟩
      · rintro ⟨n, hn, hv⟩
        exact ⟨n, hperm.mem_iff.mpr (hperm'.mem_iff.mp hn), hv⟩
    by_cases hex : ∃ n ∈ o, ∃ v ∈ n.outputs, v.ty = u
    · rw [if_pos hex, if_pos (hiff.mp hex)]
    · rw [if_neg hex, if_neg fun hx => hex (hiff.mpr hx)]
  · have herrf : u.isErr = false := bool_eq_false_of_not herr
    have hwriteruniq : ∀ (oo : List FuncNode), oo.Perm r.nodes →
        ∀ n ∈ oo, ∀ m ∈ oo, (∃ v ∈ n.outputs, v.ty = u) →
        (∃ w ∈ m.outputs, w.ty = u) → n = m := by
      rintro oo hp n hn m hm ⟨v, hv, hvu⟩ ⟨w, hw, hwu⟩
      have hnn : n ∈ r.nodes := hp.mem_iff.mp hn
      have hmm : m ∈ r.nodes := hp.mem_iff.mp hm
      have hup : u ∈ n.provides := by
        rw [← houts n hnn]
        exact List.mem_map.mpr ⟨v, hv, hvu⟩
      have hup2 : u ∈ m.provides := by
        rw [← houts m hmm]
        exact List.mem_map.mpr ⟨w, hw, hwu⟩
      exact huniq n hnn m hmm u hup herrf hup2
    have hnda : o.Nodup := hperm.symm.nodup hnodesnd
    have hndb : o'.Nodup := hperm'.symm.nodup hnodesnd
    by_cases hex : ∃ n₀, n₀ ∈ o ∧ ∃ v ∈ n₀.outputs, v.ty = u
    · rcases hex with ⟨n₀, hn₀, hwrite⟩
      have hn₀b : n₀ ∈ o' := hperm'.mem_iff.mpr (hperm.mem_iff.mp hn₀)
      rw [writes_eq_of_writer u o hnda (hwriteruniq o hperm) n₀ hn₀ hwrite,
        writes_eq_of_writer u o' hndb (hwriteruniq o' hperm') n₀ hn₀b
          hwrite]
    · have hno : ∀ n ∈ o, ∀ v ∈ n.outputs, v.ty ≠ u := by
        intro n hn v hv hvu
        exact hex ⟨n, hn, v, hv, hvu⟩
      have hno2 : ∀ n ∈ o', ∀ v ∈ n.outputs, v.ty ≠ u := by
        intro n hn v hv hvu
        exact hex ⟨n, hperm.mem_iff.mpr (hperm'.mem_iff.mp hn), v, hv, hvu⟩
      rw [writes_nil_of_no_writer u o hno, writes_nil_of_no_writer u o' hno2]

/-! ### Claim theorems -/

/-- Claim C1: for every well-formed registry whose dependency graph is
acyclic and in which every required type has a registered producer, and for
every legal map-iteration schedule, `getOrder` returns an order that is a
permutation of the registered descriptors (each appears exactly once, no
duplicates) and is a valid topological order: for every dependency edge from
producer `b` to dependent `a`, `b` precedes `a`. -/
theorem getOrder_topological_order
    (sched : Nat → List FuncNode → List FuncNode) (hs : ValidSched sched)
    (r : Resolver) (hInv : Inv r) (hsat : Satisfied r) (hacy : Acyclic r) :
    ∃ o, getOrder sched r = .ok o ∧ o.Perm r.nodes ∧ o.Nodup ∧
      ∀ a b, Edge r b a → Precedes o b a := by
  have hmiss : missingDeps r = [] := missingDeps_eq_nil_of_satisfied hsat
  have hnd := hInv.1
  have hlen : (initState r).length < r.nodes.length + 1 := by
    rw [initState_length]
    omega
  have hperm0 : (([] : List FuncNode) ++ stNodes (initState r)).Perm
      r.nodes := by
    rw [stNodes_initState]
    exact List.Perm.refl _
  have hK5 : ∀ n ∈ ([] : List FuncNode), ∀ m, Edge r m n →
      Precedes [] m n := fun n hn => absurd hn (List.not_mem_nil n)
  rcases kahnLoop_sound hs hnd hacy (r.nodes.length + 1) (initState r) [] 0
    hlen hperm0 (initState_K3 hInv) initState_K4 hK5 with ⟨o, hok, htopo⟩
  have hperm : o.Perm r.nodes := by
    have := kahnLoop_perm hs _ _ _ _ _ hok
    rw [stNodes_initState] at this
    simpa using this
  refine ⟨o, ?_, hperm, ?_, ?_⟩
  · rw [getOrder_eq_kahn hmiss]
    exact hok
  · exact hperm.symm.nodup (List.Nodup.of_map FuncNode.nid hnd)
  · intro a b hedge
    have ha : a ∈ o := hperm.symm.mem_iff.mp hedge.2.1
    exact htopo a ha b hedge

/-- Witness for C1 on a concrete two-node chain registry. -/
theorem getOrder_topological_order_witness :
    (ValidSched idSched ∧ Inv rChain ∧ Satisfied rChain ∧ Acyclic rChain) ∧
    ∃ o, getOrder idSched rChain = .ok o ∧ o.Perm rChain.nodes ∧ o.Nodup ∧
      ∀ a b, Edge rChain b a → Precedes o b a :=
  ⟨⟨fun _ l => List.Perm.refl l, by unfold Inv; decide,
    by unfold Satisfied; decide,
    acyclic_of_rank rChain (fun i => i) (by unfold Edge; decide)⟩,
   getOrder_topological_order idSched (fun _ l => List.Perm.refl l) rChain
     (by unfold Inv; decide) (by unfold Satisfied; decide)
     (acyclic_of_rank rChain (fun i => i) (by unfold Edge; decide))⟩

/-- Claim C2: whenever some required type has no registered producer, Resolve
fails with the missing-dependencies error carrying the complete deduplicated
set of all required types without a producer, across all descriptors; no
ordering is computed and no factory is executed (the error is returned
directly). -/
theorem resolve_missing_dependencies
    (sched : Nat → List FuncNode → List FuncNode) (r : Resolver)
    (hInv : Inv r)
    (hmiss : ∃ n ∈ r.nodes, ∃ t ∈ n.requires, NoProducer r t) :
    ∃ l, Resolve sched r = .error (.missingDependencies l) ∧ l.Nodup ∧
      ∀ t, t ∈ l ↔ ∃ n ∈ r.nodes, t ∈ n.requires ∧ NoProducer r t := by
  rcases hmiss with ⟨n, hn, t, ht, hnp⟩
  have hlk : r.providedBy.lookup t = none :=
    (lookup_none_iff_noProducer hInv t).mpr hnp
  have htm : t ∈ missingDeps r := mem_missingDeps_iff.mpr ⟨n, hn, ht, hlk⟩
  have hne : missingDeps r ≠ [] := by
    intro hnil
    rw [hnil] at htm
    cases htm
  refine ⟨missingDeps r, Resolve_error (getOrder_eq_missing hne),
    missingDeps_nodup r, ?_⟩
  intro s
  rw [mem_missingDeps_iff]
  constructor
  · rintro ⟨m, hm, hs, hlks⟩
    exact ⟨m, hm, hs, (lookup_none_iff_noProducer hInv s).mp hlks⟩
  · rintro ⟨m, hm, hs, hnps⟩
    exact ⟨m, hm, hs, (lookup_none_iff_noProducer hInv s).mpr hnps⟩

/-- Witness for C2 on a registry with two descriptors missing two distinct
required types. -/
theorem resolve_missing_dependencies_witness :
    (Inv rMissing ∧
      ∃ n ∈ rMissing.nodes, ∃ t ∈ n.requires, NoProducer rMissing t) ∧
    ∃ l, Resolve idSched rMissing = .error (.missingDependencies l) ∧
      l.Nodup ∧
      ∀ t, t ∈ l ↔ ∃ n ∈ rMissing.nodes, t ∈ n.requires ∧
        NoProducer rMissing t :=
  ⟨⟨by unfold Inv; decide, by unfold NoProducer; decide⟩,
   resolve_missing_dependencies idSched rMissing (by unfold Inv; decide)
     (by unfold NoProducer; decide)⟩

/-- Claim C3: for every well-formed registry with no missing dependencies
whose dependency relation contains a cycle, Resolve fails with the
circular-dependency error (so no factory is executed), for every
map-iteration schedule. -/
theorem resolve_circular_dependency
    (sched : Nat → List FuncNode → List FuncNode) (r : Resolver)
    (hInv : Inv r) (hsat : Satisfied r) (hcyc : HasCycle r) :
    Resolve sched r = .error .circularDependency := by
  have hmiss : missingDeps r = [] := missingDeps_eq_nil_of_satisfied hsat
  apply Resolve_error
  rw [getOrder_eq_kahn hmiss]
  rcases hcyc with ⟨S, hSne, hSsub, hScyc⟩
  refine kahnLoop_cycle (r.nodes.length + 1) (initState r) [] 0 S hSne
    ?_ hScyc ?_ initState_K4
  · intro x hx
    rw [stNodes_initState]
    exact hSsub x hx
  · rw [stNodes_initState]
    exact hInv.1

/-- Witness for C3 on a concrete two-node cyclic registry. -/
theorem resolve_circular_dependency_witness :
    (Inv rCycle ∧ Satisfied rCycle ∧ HasCycle rCycle) ∧
    Resolve idSched rCycle = .error .circularDependency :=
  ⟨⟨by unfold Inv; decide, by unfold Satisfied; decide,
    ⟨[nCycle1, nCycle2], by unfold Edge; decide⟩⟩,
   resolve_circular_dependency idSched rCycle (by unfold Inv; decide)
     (by unfold Satisfied; decide)
     ⟨[nCycle1, nCycle2], by unfold Edge; decide⟩⟩

/-- Claim C4: during execution, if a factory produces a non-nil
error-implementing value, the resolve call aborts immediately: the result is
the factory-failed error carrying exactly the first such value, no later
descriptor in the order affects the result (it holds for every suffix), and
no value store is returned. -/
theorem createInjector_abort_on_failure (pre post : List FuncNode)
    (n : FuncNode) (s : List (Ty × Val)) (v : Val)
    (hpre : runOrder [] pre = .ok s)
    (hreq : (n.requires.all fun t => (s.lookup t).isSome) = true)
    (hfail : firstFailure n.outputs = some v) :
    createInjector (pre ++ n :: post) = .error (.factoryFailed v) ∧
    ∀ (sched : Nat → List FuncNode → List FuncNode) (r : Resolver),
      getOrder sched r = .ok (pre ++ n :: post) →
      Resolve sched r = .error (.factoryFailed v) := by
  have hinv : invokeNode s n = .ok n.outputs := by
    unfold invokeNode
    rw [hreq]
    rfl
  have herr : processVals s n.outputs = .error (.factoryFailed v) :=
    (processVals_error_iff s n.outputs v).mpr hfail
  have hmain : createInjector (pre ++ n :: post) =
      .error (.factoryFailed v) := by
    unfold createInjector
    rw [runOrder_append, hpre]
    show runOrder s (n :: post) = _
    simp [runOrder, hinv, herr]
  refine ⟨hmain, ?_⟩
  intro sched r hgo
  rw [Resolve_ok hgo]
  exact hmain

/-- Witness for C4: a failing factory followed by a second factory. -/
theorem createInjector_abort_on_failure_witness :
    (runOrder [] [] = .ok [] ∧
     (nFail.requires.all fun t =>
       (([] : List (Ty × Val)).lookup t).isSome) = true ∧
     firstFailure nFail.outputs = some vFail) ∧
    createInjector ([] ++ nFail :: [nAfter]) =
      .error (.factoryFailed vFail) ∧
    Resolve idSched rFail = .error (.factoryFailed vFail) :=
  ⟨⟨rfl, by decide, by decide⟩,
   (createInjector_abort_on_failure [] [nAfter] nFail [] vFail rfl
     (by decide) (by decide)).1,
   (createInjector_abort_on_failure [] [nAfter] nFail [] vFail rfl
     (by decide) (by decide)).2 idSched rFail (by decide)⟩

/-- Claim C5 (counterexample): registering a single factory that provides the
same non-failure type twice is rejected with the duplicate-producer error
even in an empty registry, where no earlier registered factory provides that
type — refuting the claimed "exactly when an earlier registered factory
already provides it". -/
theorem addNode_self_duplicate_producer :
    (AddNode NewResolver "A" (.fn [] [tyA, tyA] [])).1 =
      some "Type provided by multiple constructors" ∧
    NewResolver.nodes = [] := by decide

/-- Claim C5 (amended): with a fresh name and a valid func item on a
well-formed registry, registration rejects with the duplicate-producer error
exactly when some non-failure provided type either already has a registered
producer or occurs at least twice in the new factory's own provides list;
failure-typed provides never trigger the check. -/
theorem addNode_duplicate_producer_iff (r : Resolver) (nm : String)
    (req prov : List Ty) (outs : List Val) (hInv : Inv r)
    (hname : r.names.contains nm = false) :
    ((AddNode r nm (.fn req prov outs)).1 =
        some "Type provided by multiple constructors") ↔
      ∃ t ∈ prov, t.isErr = false ∧
        ((∃ m ∈ r.nodes, t ∈ m.provides) ∨ 2 ≤ prov.count t) := by
  rw [addNode_fn_fst r nm req prov outs hname]
  have base := addProvides_fst_eq_none_iff r.nextId r.providedBy prov
  constructor
  · intro h
    by_contra hc
    have hnone : (addProvides r.nextId r.providedBy prov).1 = none := by
      apply base.mpr
      intro t ht hterr
      refine ⟨?_, ?_⟩
      · cases hlk : r.providedBy.lookup t with
        | none => rfl
        | some i =>
            exfalso
            have hsome : (r.providedBy.lookup t).isSome = true := by
              rw [hlk]
              rfl
            exact hc ⟨t, ht, hterr,
              Or.inl ((lookup_isSome_iff_producer hInv hterr).mp hsome)⟩
      · by_contra hcnt
        exact hc ⟨t, ht, hterr, Or.inr (by omega)⟩
    rw [hnone] at h
    cases h
  · rintro ⟨t, ht, hterr, hcase⟩
    rcases addProvides_fst_cases r.nextId r.providedBy prov with hx | hx
    · exfalso
      rcases base.mp hx t ht hterr with ⟨hlk, hcnt⟩
      rcases hcase with hprod | hcnt2
      · have := (lookup_isSome_iff_producer hInv hterr).mpr hprod
        rw [hlk] at this
        cases this
      · omega
    · exact hx

/-- Witness for the amended C5 on a registry with a registered producer. -/
theorem addNode_duplicate_producer_iff_witness :
    (Inv rProd ∧ rProd.names.contains "q" = false) ∧
    (((AddNode rProd "q" (.fn [] [tyA] [])).1 =
        some "Type provided by multiple constructors") ↔
      ∃ t ∈ [tyA], t.isErr = false ∧
        ((∃ m ∈ rProd.nodes, t ∈ m.provides) ∨ 2 ≤ [tyA].count t)) :=
  ⟨⟨by unfold Inv; decide, by decide⟩,
   addNode_duplicate_producer_iff rProd "q" [] [tyA] []
     (by unfold Inv; decide) (by decide)⟩

/-- Claim C6 (counterexample): a registration that fails with the
duplicate-producer error can leave the type-to-producer mapping mutated: the
rejected factory's earlier non-failure provides remain recorded. -/
theorem addNode_failure_mutates_providedBy :
    ((AddNode rDup1 "b" (.fn [] [tyA, tyB] [])).1).isSome = true ∧
    (AddNode rDup1 "b" (.fn [] [tyA, tyB] [])).2.providedBy ≠
      rDup1.providedBy := by decide

/-- Claim C6 (amended): a failing registration leaves the descriptor list and
the name set unchanged, and leaves `providedBy` unchanged except that a
duplicate-producer failure may append entries for the rejected factory's
non-failure provides listed before the clashing type; a successful
registration appends exactly one descriptor. -/
theorem addNode_registration_effects (r : Resolver) (nm : String)
    (item : Item) :
    ((AddNode r nm item).1.isSome = true →
      (AddNode r nm item).2.nodes = r.nodes ∧
      (AddNode r nm item).2.names = r.names ∧
      ∃ extra, (AddNode r nm item).2.providedBy = r.providedBy ++ extra ∧
        (extra ≠ [] → (AddNode r nm item).1 =
          some "Type provided by multiple constructors")) ∧
    ((AddNode r nm item).1 = none →
      ∃ n, (AddNode r nm item).2.nodes = r.nodes ++ [n]) :=
  ⟨addNode_failure_effects r nm item, addNode_success_appends r nm item⟩

/-- Witness for the amended C6 at the counterexample input. -/
theorem addNode_registration_effects_witness :
    ((AddNode rDup1 "b" (.fn [] [tyA, tyB] [])).1.isSome = true) ∧
    ((AddNode rDup1 "b" (.fn [] [tyA, tyB] [])).2.nodes = rDup1.nodes ∧
     (AddNode rDup1 "b" (.fn [] [tyA, tyB] [])).2.names = rDup1.names ∧
     ∃ extra, (AddNode rDup1 "b" (.fn [] [tyA, tyB] [])).2.providedBy =
         rDup1.providedBy ++ extra ∧
       (extra ≠ [] → (AddNode rDup1 "b" (.fn [] [tyA, tyB] [])).1 =
         some "Type provided by multiple constructors")) :=
  ⟨by decide,
   (addNode_registration_effects rDup1 "b" (.fn [] [tyA, tyB] [])).1
     (by decide)⟩

/-- Claim C7 (counterexample): the execution order depends on the Go map
iteration order of the ready set: two legal iteration orders (insertion order
and reversed) produce different execution orders on the same registry, so
two resolve calls need not return the same order. -/
theorem getOrder_schedule_dependent :
    getOrder idSched rPair = .ok [nPairA, nPairB] ∧
    getOrder revSched rPair = .ok [nPairB, nPairA] ∧
    nPairA ≠ nPairB := by decide

/-- Claim C7 (amended): two resolve calls on the same registry, under any two
legal map-iteration schedules, produce execution orders that are permutations
of the registered descriptors and hence of each other — the same descriptors
each exactly once, though possibly in a different relative order among
simultaneously-ready descriptors — and, whenever both calls succeed, the two
final value stores have the same contents: every type looks up to the same
value in both (each non-failure type is written only by its unique producer,
whose internal output order is fixed, and any stored failure-typed value is a
nil value of that type). -/
theorem resolve_deterministic_up_to_order
    (sched sched' : Nat → List FuncNode → List FuncNode)
    (hs : ValidSched sched) (hs' : ValidSched sched') (r : Resolver)
    (hInv : Inv r) (houts : OutputsTyped r) (huniq : UniqueProducers r)
    (o o' : List FuncNode) (h : getOrder sched r = .ok o)
    (h' : getOrder sched' r = .ok o') :
    o.Perm r.nodes ∧ o'.Perm r.nodes ∧ o.Perm o' ∧
    ∀ s s', Resolve sched r = .ok s → Resolve sched' r = .ok s' →
      ∀ u, s.lookup u = s'.lookup u := by
  have key : ∀ (sch : Nat → List FuncNode → List FuncNode), ValidSched sch →
      ∀ oo, getOrder sch r = .ok oo → oo.Perm r.nodes := by
    intro sch hsch oo hoo
    unfold getOrder at hoo
    by_cases hm : (missingDeps r).isEmpty
    · rw [if_pos hm] at hoo
      have := kahnLoop_perm hsch _ _ _ _ _ hoo
      rw [stNodes_initState] at this
      simpa using this
    · rw [if_neg hm] at hoo
      cases hoo
  have h1 := key sched hs o h
  have h2 := key sched' hs' o' h'
  refine ⟨h1, h2, h1.trans h2.symm, ?_⟩
  intro s s' hres hres'
  rw [Resolve_ok h] at hres
  rw [Resolve_ok h'] at hres'
  exact runOrder_store_agree houts huniq
    (List.Nodup.of_map FuncNode.nid hInv.1) h1 h2 hres hres'

/-- Witness for the amended C7: two schedules run the same two-factory
registry in opposite orders; the orders are permutations of each other, both
resolves succeed, and the stores agree at every type. -/
theorem resolve_deterministic_up_to_order_witness :
    (ValidSched idSched ∧ ValidSched revSched ∧ Inv rStore ∧
     OutputsTyped rStore ∧ UniqueProducers rStore ∧
     getOrder idSched rStore = .ok [nStoreA, nStoreB] ∧
     getOrder revSched rStore = .ok [nStoreB, nStoreA] ∧
     (Resolve idSched rStore).isOk = true ∧
     (Resolve revSched rStore).isOk = true) ∧
    ([nStoreA, nStoreB].Perm rStore.nodes ∧
     [nStoreB, nStoreA].Perm rStore.nodes ∧
     [nStoreA, nStoreB].Perm [nStoreB, nStoreA] ∧
     ∀ s s', Resolve idSched rStore = .ok s →
       Resolve revSched rStore = .ok s' →
       ∀ u, s.lookup u = s'.lookup u) :=
  ⟨⟨fun _ l => List.Perm.refl l, fun _ l => List.reverse_perm l,
    by unfold Inv; decide, by unfold OutputsTyped; decide,
    by unfold UniqueProducers; decide, by decide, by decide, by decide,
    by decide⟩,
   resolve_deterministic_up_to_order idSched revSched
     (fun _ l => List.Perm.refl l) (fun _ l => List.reverse_perm l) rStore
     (by unfold Inv; decide) (by unfold OutputsTyped; decide)
     (by unfold UniqueProducers; decide) [nStoreA, nStoreB]
     [nStoreB, nStoreA] (by decide) (by decide)⟩

/-- Claim C8 (counterexample): a non-nil output of a concrete type that
implements the error interface — a type different from the designated
failure type `errorType` itself — aborts execution with the factory-failed
error instead of being stored, refuting "only the single designated failure
type is treated as a failure signal". -/
theorem createInjector_error_like_aborts :
    createInjector [nBad] = .error (.factoryFailed vBad) ∧
    vBad.ty ≠ errorType ∧ vBad.ty.isErr = true := by decide

/-- Claim C8 (amended): the failure check is by error-interface
implementation, not identity with a single type: execution fails with the
factory-failed error exactly on the first non-nil error-implementing output,
and when no output is a non-nil error-implementing value, every output
(whatever its shape) is stored in the value store. -/
theorem processVals_failure_spec (store : List (Ty × Val))
    (vals : List Val) :
    (∀ v, processVals store vals = .error (.factoryFailed v) ↔
      firstFailure vals = some v) ∧
    (firstFailure vals = none →
      ∃ s, processVals store vals = .ok s ∧
        ∀ v ∈ vals, (s.lookup v.ty).isSome = true) := by
  constructor
  · intro v
    exact processVals_error_iff store vals v
  · intro h
    rcases processVals_ok_of_no_failure vals store h with ⟨s, hok, _, hall⟩
    exact ⟨s, hok, hall⟩

/-- Witness for the amended C8 at a concrete non-error output. -/
theorem processVals_failure_spec_witness :
    firstFailure [(⟨tyA, some 1⟩ : Val)] = none ∧
    ∃ s, processVals [] [(⟨tyA, some 1⟩ : Val)] = .ok s ∧
      ∀ v ∈ [(⟨tyA, some 1⟩ : Val)], (s.lookup v.ty).isSome = true :=
  ⟨by decide, (processVals_failure_spec [] [⟨tyA, some 1⟩]).2 (by decide)⟩

/-- Claim C9 (counterexample): registration accepts a factory whose provides
sequence contains the designated failure type twice, refuting "at most one
entry of its provides sequence is the designated failure type". -/
theorem addNode_accepts_two_error_outputs :
    (AddNode NewResolver "A" (.fn [] [errorType, errorType] [])).1 = none ∧
    (AddNode NewResolver "A"
      (.fn [] [errorType, errorType] [])).2.nodes.map FuncNode.provides =
      [[errorType, errorType]] ∧
    [errorType, errorType].count errorType = 2 := by decide

/-- Claim C9 (amended): registration places no bound on the number of
failure-typed outputs: every error-implementing provided type is skipped by
the uniqueness check, so a factory all of whose provides are failure-typed is
always accepted (under a fresh name), however many there are. -/
theorem addNode_any_error_outputs_ok (r : Resolver) (nm : String)
    (req prov : List Ty) (outs : List Val)
    (herr : ∀ t ∈ prov, t.isErr = true)
    (hname : r.names.contains nm = false) :
    (AddNode r nm (.fn req prov outs)).1 = none := by
  rw [addNode_fn_fst r nm req prov outs hname,
    addProvides_all_err r.nextId r.providedBy prov herr]

/-- Witness for the amended C9 with three failure-typed outputs. -/
theorem addNode_any_error_outputs_ok_witness :
    ((∀ t ∈ [errorType, errorType, errorType], t.isErr = true) ∧
     NewResolver.names.contains "W" = false) ∧
    (AddNode NewResolver "W"
      (.fn [] [errorType, errorType, errorType] [])).1 = none :=
  ⟨⟨by decide, by decide⟩,
   addNode_any_error_outputs_ok NewResolver "W" []
     [errorType, errorType, errorType] [] (by decide) (by decide)⟩

/-- Claim C10: in a well-formed registry, a factory requiring an
error-implementing type (in particular the failure type) always makes
Resolve fail with the missing-dependencies error listing that type, because
failure-typed provides are never recorded in the type-to-producer mapping. -/
theorem resolve_error_requirement_missing
    (sched : Nat → List FuncNode → List FuncNode) (r : Resolver)
    (hInv : Inv r) (n : FuncNode) (hn : n ∈ r.nodes) (t : Ty)
    (ht : t ∈ n.requires) (he : t.isErr = true) :
    ∃ l, Resolve sched r = .error (.missingDependencies l) ∧ t ∈ l := by
  have hlk : r.providedBy.lookup t = none := by
    cases hlk : r.providedBy.lookup t with
    | none => rfl
    | some i =>
        rcases hInv.2.1 (t, i) (lookup_eq_some_mem hlk) with ⟨herr, _⟩
        rw [he] at herr
        cases herr
  have htm : t ∈ missingDeps r := mem_missingDeps_iff.mpr ⟨n, hn, ht, hlk⟩
  have hne : missingDeps r ≠ [] := by
    intro hnil
    rw [hnil] at htm
    cases htm
  exact ⟨missingDeps r, Resolve_error (getOrder_eq_missing hne), htm⟩

/-- Witness for C10: a registry that even contains an error-producing
factory, plus a factory requiring the error type. -/
theorem resolve_error_requirement_missing_witness :
    (Inv rNeedsErr ∧ nNeedsErr ∈ rNeedsErr.nodes ∧
     errorType ∈ nNeedsErr.requires ∧ errorType.isErr = true ∧
     ∃ m ∈ rNeedsErr.nodes, errorType ∈ m.provides) ∧
    ∃ l, Resolve idSched rNeedsErr = .error (.missingDependencies l) ∧
      errorType ∈ l :=
  ⟨⟨by unfold Inv; decide, by decide, by decide, by decide, by decide⟩,
   resolve_error_requirement_missing idSched rNeedsErr
     (by unfold Inv; decide) nNeedsErr (by decide) errorType (by decide)
     (by decide)⟩

end GoResolve
